import Mathlib

/-!
Verification of the SGVBWords trainer (src/trainers/sgvb.py).

The numeric code is embedded shallowly:
* token matrices (`N x L`, theano `imatrix`) become `List (List ℤ)` (rows of
  equal length in actual use; no claim below needs rectangularity unless
  stated);
* real-valued tensors (float32 in the source) become `ℚ`-valued lists, so
  every definition stays executable; the backend exponential `T.exp` is
  passed in as an explicit function argument;
* the recognition and generative models are external collaborators in the
  source, so `symbolic_elbo` takes them as function arguments and the
  theorems quantify over them.
-/

namespace SGVBWords

/-- Real-valued matrix (rows of rationals), standing for a float tensor. -/
abbrev Mat := List (List ℚ)

/-- One step of the truncation scan (inner function `step` of
`SGVBWords.cut_off`, src lines 95-100).  `x_l` is the raw entry of the
current column, `x_lm1` the previous *output* (the scan state): the two
`T.switch` calls turn the output into the sentinel -1 whenever the previous
output was the end-of-sequence index or already the sentinel.  The second
switch (`eq(x_lm1, -1)`) is applied to the result of the first, so it is the
outermost conditional here.  The final `T.cast` to int32 is value-preserving
on int32 inputs and is modelled as the identity. -/
def step (eos x_l x_lm1 : ℤ) : ℤ :=
  if x_lm1 = -1 then -1 else if x_lm1 = eos then -1 else x_l

/-- Left-to-right fold of `step` along one row, carrying the previous output
as state.  `theano.scan` in `cut_off` (src lines 102-105) runs over the
columns of `x` with a vector state, one component per row; since `step` is
elementwise, the scan is exactly this fold applied to each row
independently. -/
def cutOffGo (eos : ℤ) : ℤ → List ℤ → List ℤ
  | _, [] => []
  | s, v :: rest =>
    let y := step eos v s
    y :: cutOffGo eos y rest

/-- `SGVBWords.cut_off` (src lines 87-107): truncate each row after the first
end-of-sequence index.  The scan state is initialised with `T.zeros`
(src line 104), so the virtual predecessor of column 0 is the integer 0. -/
def cut_off (eos : ℤ) (x : List (List ℤ)) : List (List ℤ) :=
  x.map (cutOffGo eos 0)

/-- Written from the spec's words, for comparison with `cut_off`: keep the
row up to and including the first occurrence of the end-of-sequence index,
replace every later column by the sentinel -1, and leave rows without an
occurrence unchanged (`List.findIdx` returns the row length in that case,
so the formula degenerates to the identity). -/
def specTruncateRow (eos : ℤ) (row : List ℤ) : List ℤ :=
  let k := row.findIdx (fun v => v = eos)
  row.take (k + 1) ++ List.replicate (row.length - (k + 1)) (-1)

/-- Rank-3 real tensor (`N x L x E`), an embedded batch of sentences. -/
abbrev Tens3 := List (List (List ℚ))

/-- Row selection with the negative-indexing convention of the execution
backend (`all_embeddings[x]`, src line 85): a negative index selects from
the end of the augmented table, so -1 resolves to the appended zero row. -/
def lookupRow (aug : Mat) (i : ℤ) : List ℚ :=
  let j : ℤ := if i < 0 then (aug.length : ℤ) + i else i
  aug.getD j.toNat []

/-- `SGVBWords.embedder` (src lines 72-85): append a zero row of width `E`
to the embedding table and look every index of `x` up in the augmented
table.  The table is an argument, so each call reads whatever values the
caller passes at call time; the function never modifies the table. -/
def embedder (E : ℕ) (x : List (List ℤ)) (all_embeddings : Mat) : Tens3 :=
  let aug := all_embeddings ++ [List.replicate E 0]
  x.map (fun row => row.map (fun i => lookupRow aug i))

/-- Written from the spec's words, for comparison with `embedder`: the
sentinel -1 yields the all-zero `E`-vector, any other index selects that row
of the table. -/
def specLookup (E : ℕ) (table : Mat) (i : ℤ) : List ℚ :=
  if i = -1 then List.replicate E 0 else table.getD i.toNat []

/-- Elementwise product of an embedded batch with a per-timestep mask,
broadcast across the embedding dimension
(`x_embedded * T.shape_padright(drop_mask)`, src line 130). -/
def applyDropMask (xe : Tens3) (dm : Mat) : Tens3 :=
  List.zipWith (fun erow mrow =>
    List.zipWith (fun evec mval => evec.map (fun t => t * mval)) erow mrow) xe dm

/-- The embedding of `x` actually scored by the generative model
(src lines 127-130): the plain embedding when no drop mask is given,
otherwise the masked embedding. -/
def droppedEmbedding (E : ℕ) (all_embeddings : Mat) (x : List (List ℤ))
    (drop_mask : Option Mat) : Tens3 :=
  match drop_mask with
  | none => embedder E x all_embeddings
  | some dm => applyDropMask (embedder E x all_embeddings) dm

/-- Total sum of a matrix, `T.sum` of a rank-2 tensor. -/
def matSum (m : Mat) : ℚ := (m.map List.sum).sum

/-- Scalar times matrix, broadcast multiplication. -/
def scalarMul (c : ℚ) (m : Mat) : Mat := m.map (List.map (fun v => c * v))

/-- The divisor of the perplexity proxy,
`T.sum(T.switch(T.lt(x, 0), 0, 1))` (src line 143): each entry of `x`
contributes 1 when it is `≥ 0` and 0 when it is negative. -/
def validTokenCount (x : List (List ℤ)) : ℤ :=
  (x.map (fun row => (row.map (fun v => if v < 0 then (0 : ℤ) else 1)).sum)).sum

/-- The number of non-negative (non-sentinel) entries of a token matrix. -/
def countNonneg (x : List (List ℤ)) : ℕ :=
  (x.map (fun row => row.countP (fun v => 0 ≤ v))).sum

/-- Type of the recognition collaborator's
`get_samples_and_kl_std_gaussian(x_m, x_m_embedded, num_samples)`
(src line 125): latent samples plus per-example KL. -/
abbrev RecSampler := List (List ℤ) → Tens3 → ℕ → Mat × List ℚ

/-- Type of the generative collaborator's
`log_p_x(x, x_embedded, x_embedded_dropped, z, all_embeddings)`
(src line 133): an `S x N` matrix of log-likelihoods. -/
abbrev GenLogPx := List (List ℤ) → Tens3 → Tens3 → Mat → Mat → Mat

/-- `SGVBWords.symbolic_elbo` (src lines 109-145).  The recognition and
generative models are external collaborators, passed as functions, and the
backend exponential `T.exp` is passed as `Texp`.  Returns
`(elbo, T.sum(kl), pp)`.  The flag `optimal_ratio_mode` is the source's
`optimal_ratio` keyword. -/
def symbolic_elbo (Texp : ℚ → ℚ) (all_embeddings : Mat) (E : ℕ)
    (recModel : RecSampler) (genLogPx : GenLogPx)
    (x x_m : List (List ℤ)) (num_samples : ℕ)
    (optimal_ratio_mode : Bool) (beta : Option ℚ) (drop_mask : Option Mat) :
    ℚ × ℚ × ℚ :=
  let x_embedded := embedder E x all_embeddings
  let x_m_embedded := embedder E x_m all_embeddings
  let zkl := recModel x_m x_m_embedded num_samples
  let z := zkl.1
  let kl := zkl.2
  let x_embedded_dropped := droppedEmbedding E all_embeddings x drop_mask
  let log_p_x := genLogPx x x_embedded x_embedded_dropped z all_embeddings
  let elbo :=
    if optimal_ratio_mode then
      matSum (scalarMul (1 / (num_samples : ℚ)) log_p_x) - kl.sum / 2
    else
      match beta with
      | none => matSum (scalarMul (1 / (num_samples : ℚ)) log_p_x) - kl.sum
      | some b =>
          matSum (scalarMul (1 / (num_samples : ℚ)) log_p_x) -
            (kl.map (fun v => b * v)).sum
  let pp := Texp (-(matSum (scalarMul (1 / (num_samples : ℚ)) log_p_x) - kl.sum) /
    (validTokenCount x : ℚ))
  (elbo, kl.sum, pp)

/-- The saved-state restore loop of `SGVBWords.optimiser` (src lines
199-201): `for u, v in zip(updates, saved_update.keys()): u.set_value(v.get_value())`.
Pairing is positional via `zip`, which stops at the shorter sequence, so the
resulting accumulator values are the saved values on the overlap and the
untouched fresh values beyond it; no length or order check is performed. -/
def restore_saved_update {α : Type} (updates saved_update : List α) : List α :=
  (updates.zip saved_update).map Prod.snd ++ updates.drop saved_update.length

/-- A gradient tensor of rank 0, 1 or 2, enough to express the rank
dispatch `g.ndim > 1` of src line 192; real-valued because clipping divides
by a Euclidean norm. -/
inductive GTensor where
  | scal (v : ℝ)
  | vec (v : List ℝ)
  | mat (m : List (List ℝ))

/-- Tensor rank (`g.ndim`). -/
def GTensor.ndim : GTensor → ℕ
  | .scal _ => 0
  | .vec _ => 1
  | .mat _ => 2

/-- Sum of squared entries of a matrix: the squared Euclidean (Frobenius)
norm. -/
noncomputable def sumSq (m : List (List ℝ)) : ℝ :=
  (m.map (fun row => (row.map (fun v => v ^ 2)).sum)).sum

/-- Modelled from the spec: the external library call
`lasagne.updates.norm_constraint(g, max_norm)` (imported at src line 4, its
body is not part of this repository).  Per the spec it rescales the tensor
so its Euclidean norm does not exceed the threshold, and leaves it unchanged
otherwise. -/
noncomputable def norm_constraint (max_norm : ℝ) (m : List (List ℝ)) :
    List (List ℝ) :=
  if sumSq m ≤ max_norm ^ 2 then m
  else m.map (List.map (fun v => (max_norm / Real.sqrt (sumSq m)) * v))

/-- Clipping applied to one gradient tensor of rank 2; lower ranks are
untouched (they are never passed to `norm_constraint` by the source). -/
noncomputable def GTensor.clip (c : ℝ) : GTensor → GTensor
  | .mat m => .mat (norm_constraint c m)
  | t => t

/-- The per-gradient dispatch of src line 192:
`norm_constraint(g, grad_norm_constraint) if g.ndim > 1 else g`. -/
noncomputable def clipOne (c : ℝ) (g : GTensor) : GTensor :=
  if 1 < g.ndim then g.clip c else g

/-- The gradient-clipping pass of `SGVBWords.optimiser` (src lines
191-192): applied to every gradient only when a threshold is configured. -/
noncomputable def clip_grads (c : Option ℝ) (grads : List GTensor) :
    List GTensor :=
  match c with
  | none => grads
  | some c0 => grads.map (clipOne c0)

end SGVBWords

namespace SGVBWords

lemma step_of_stop (eos v s : ℤ) (h : s = eos ∨ s = -1) : step eos v s = -1 := by
  rcases h with h | h
  · by_cases hs : s = -1 <;> simp [step, hs, h]
  · simp [step, h]

lemma step_of_go (eos v s : ℤ) (h1 : s ≠ eos) (h2 : s ≠ -1) : step eos v s = v := by
  simp [step, h1, h2]

lemma cutOffGo_cons (eos s v : ℤ) (rest : List ℤ) :
    cutOffGo eos s (v :: rest) = step eos v s :: cutOffGo eos (step eos v s) rest := rfl

/-- Once the state is the end-of-sequence index or the sentinel, every later
output is the sentinel. -/
lemma cutOffGo_absorb (eos s : ℤ) (xs : List ℤ) (h : s = eos ∨ s = -1) :
    cutOffGo eos s xs = List.replicate xs.length (-1) := by
  induction xs generalizing s with
  | nil => rfl
  | cons v rest ih =>
    rw [cutOffGo_cons, step_of_stop eos v s h, List.length_cons,
      List.replicate_succ, ih (-1) (Or.inr rfl)]

lemma cutOffGo_length (eos s : ℤ) (xs : List ℤ) :
    (cutOffGo eos s xs).length = xs.length := by
  induction xs generalizing s with
  | nil => rfl
  | cons v rest ih => simp [cutOffGo, ih]

/-- On rows of non-negative entries, the fold agrees with the spec-side
truncation as long as the current state is neither the end-of-sequence index
nor the sentinel. -/
lemma cutOffGo_eq_spec (eos s : ℤ) (xs : List ℤ)
    (h1 : s ≠ eos) (h2 : s ≠ -1) (hxs : ∀ v ∈ xs, 0 ≤ v) :
    cutOffGo eos s xs = specTruncateRow eos xs := by
  induction xs generalizing s with
  | nil => rfl
  | cons v rest ih =>
    have hv : 0 ≤ v := hxs v (List.mem_cons_self _ _)
    have hrest : ∀ u ∈ rest, 0 ≤ u := fun u hu => hxs u (List.mem_cons_of_mem _ hu)
    rw [cutOffGo_cons, step_of_go eos v s h1 h2]
    by_cases hveos : v = eos
    · rw [cutOffGo_absorb eos v rest (Or.inl hveos)]
      simp [specTruncateRow, List.findIdx_cons, hveos]
    · have hvm1 : v ≠ -1 := by omega
      rw [ih v hveos hvm1 hrest]
      simp only [specTruncateRow, List.findIdx_cons, hveos, decide_False,
        cond_false, List.take_succ_cons, List.length_cons, List.cons_append]
      set k := List.findIdx (fun u => u = eos) rest with hk
      rw [show rest.length + 1 - (k + 1 + 1) = rest.length - (k + 1) from by omega]

lemma getD_replicate_neg_one (n i : ℕ) (h : i < n) :
    (List.replicate n (-1 : ℤ)).getD i 0 = -1 := by
  induction n generalizing i with
  | zero => omega
  | succ m ih =>
    cases i with
    | zero => rfl
    | succ i2 => simpa [List.replicate_succ] using ih i2 (by omega)

/-- Sentinel outputs of the fold are absorbing: a -1 at position `i` forces
-1 at every later position `j` of the same row. -/
lemma cutOffGo_absorbing (eos : ℤ) (xs : List ℤ) (s : ℤ) (i j : ℕ) (hij : i < j)
    (hj : j < xs.length) (hi : (cutOffGo eos s xs).getD i 0 = -1) :
    (cutOffGo eos s xs).getD j 0 = -1 := by
  induction xs generalizing s i j with
  | nil => simp at hj
  | cons v rest ih =>
    rw [cutOffGo_cons] at hi ⊢
    cases i with
    | zero =>
      have hy : step eos v s = -1 := by simpa using hi
      cases j with
      | zero => omega
      | succ j2 =>
        rw [List.getD_cons_succ, hy, cutOffGo_absorb eos (-1) rest (Or.inr rfl)]
        exact getD_replicate_neg_one rest.length j2 (by simpa using hj)
    | succ i2 =>
      cases j with
      | zero => omega
      | succ j2 =>
        rw [List.getD_cons_succ] at hi ⊢
        exact ih (step eos v s) i2 j2 (by omega) (by simpa using hj) hi

/-- A second pass of the fold leaves its own output unchanged, for any pair
of initial states that agree on whether they trigger the sentinel. -/
lemma cutOffGo_idem (eos : ℤ) (xs : List ℤ) (s1 s2 : ℤ)
    (h : (s1 = eos ∨ s1 = -1) ↔ (s2 = eos ∨ s2 = -1)) :
    cutOffGo eos s2 (cutOffGo eos s1 xs) = cutOffGo eos s1 xs := by
  induction xs generalizing s1 s2 with
  | nil => rfl
  | cons v rest ih =>
    by_cases h1 : s1 = eos ∨ s1 = -1
    · have h2 := h.mp h1
      rw [cutOffGo_cons, step_of_stop eos v s1 h1, cutOffGo_cons,
        step_of_stop eos (-1) s2 h2, ih (-1) (-1) Iff.rfl]
    · have h2 : ¬(s2 = eos ∨ s2 = -1) := fun hh => h1 (h.mpr hh)
      push_neg at h1 h2
      rw [cutOffGo_cons, step_of_go eos v s1 h1.1 h1.2, cutOffGo_cons,
        step_of_go eos v s2 h2.1 h2.2, ih v v Iff.rfl]

/-- C1 (amended: the end-of-sequence index must differ from 0, the scan's
virtual initial state): on any matrix of vocabulary ids in `[0, V-1]`,
`cut_off` truncates each row after the first occurrence of the
end-of-sequence index exactly as the spec-side `specTruncateRow` describes —
columns up to and including the first occurrence are preserved, all later
columns become the sentinel -1, and rows with no occurrence are returned
unchanged. -/
theorem cut_off_matches_spec (V eos : ℤ) (x : List (List ℤ)) (he : eos ≠ 0)
    (hx : ∀ row ∈ x, ∀ v ∈ row, 0 ≤ v ∧ v ≤ V - 1) :
    cut_off eos x = x.map (specTruncateRow eos) := by
  simp only [cut_off]
  refine List.map_congr_left (fun r hr => ?_)
  exact cutOffGo_eq_spec eos 0 r (Ne.symm he) (by decide)
    (fun v hv => (hx r hr v hv).1)

/-- Witness for C1 at the spec's own example: `eos = 2`,
row `[5,3,2,7,7]`, vocabulary ids in `[0, 7]`. -/
theorem cut_off_matches_spec_witness :
    cut_off 2 [[(5 : ℤ), 3, 2, 7, 7]] = [[(5 : ℤ), 3, 2, 7, 7]].map (specTruncateRow 2) :=
  cut_off_matches_spec 8 2 [[(5 : ℤ), 3, 2, 7, 7]] (by decide) (by decide)

/-- Counterexample to C1 as stated: with end-of-sequence index 0 (a legal
vocabulary id, here with V = 2) the row `[1]` contains no occurrence of the
index, yet `cut_off` does not return it unchanged — the scan's zero initial
state is mistaken for an end-of-sequence and the row is blanked. -/
theorem cut_off_cex :
    (0 : ℤ) ∉ [(1 : ℤ)] ∧ cut_off 0 [[(1 : ℤ)]] = [[-1]] ∧
      cut_off 0 [[(1 : ℤ)]] ≠ [[(1 : ℤ)]] := by decide

/-- C5 (amended): when the end-of-sequence index is 0 — the scan's virtual
initial state (`T.zeros`, src line 104) — the initial state itself is
mistaken for an end-of-sequence at column 0, so every column of every row,
including column 0, becomes the sentinel -1. -/
theorem cut_off_eos_zero (x : List (List ℤ)) :
    cut_off 0 x = x.map (fun row => List.replicate row.length (-1)) := by
  simp only [cut_off]
  exact List.map_congr_left (fun r hr => cutOffGo_absorb 0 0 r (Or.inl rfl))

/-- Counterexample to C5 as stated: for `eos = 0` and row `[5, 3]` the claim
predicts `[5, -1]` (column 0 unchanged), but the code blanks column 0 as
well. -/
theorem cut_off_eos_zero_cex :
    cut_off 0 [[(5 : ℤ), 3]] = [[-1, -1]] ∧ [[(-1 : ℤ), -1]] ≠ [[(5 : ℤ), -1]] := by
  decide

/-- C7: the output of `cut_off` is monotone and absorbing per row — a
sentinel -1 at column `i` of an output row forces -1 at every later column
`j` of that row; and each output row is a function of the corresponding
input row alone (`cut_off` maps `cutOffGo` over the rows), independent of
the other rows. -/
theorem cut_off_monotone_absorbing (eos : ℤ) (x : List (List ℤ)) (row : List ℤ)
    (i j : ℕ) (hrow : row ∈ cut_off eos x) (hij : i < j) (hj : j < row.length)
    (hi : row.getD i 0 = -1) :
    row.getD j 0 = -1 ∧ cut_off eos x = x.map (cutOffGo eos 0) := by
  obtain ⟨r, hr, rfl⟩ := List.mem_map.mp hrow
  have hlen : j < r.length := by
    simpa [cutOffGo_length] using hj
  exact ⟨cutOffGo_absorbing eos r 0 i j hij hlen hi, rfl⟩

/-- Witness for C7: `eos = 2`, matrix `[[1,2,3,4]]`, output row
`[1,2,-1,-1]`, sentinel at column 2 forces sentinel at column 3. -/
theorem cut_off_monotone_absorbing_witness :
    List.getD [(1 : ℤ), 2, -1, -1] 3 0 = -1 ∧
      cut_off 2 [[(1 : ℤ), 2, 3, 4]] = [[(1 : ℤ), 2, 3, 4]].map (cutOffGo 2 0) :=
  cut_off_monotone_absorbing 2 [[(1 : ℤ), 2, 3, 4]] [(1 : ℤ), 2, -1, -1] 2 3
    (by decide) (by decide) (by decide) (by decide)

/-- C9: `cut_off` is idempotent — applying it to its own output returns the
output unchanged, for every integer matrix and every end-of-sequence
index. -/
theorem cut_off_idempotent (eos : ℤ) (x : List (List ℤ)) :
    cut_off eos (cut_off eos x) = cut_off eos x := by
  simp only [cut_off, List.map_map]
  refine List.map_congr_left (fun r hr => ?_)
  exact cutOffGo_idem eos r 0 0 Iff.rfl

lemma sum_map_mul (c : ℚ) (l : List ℚ) :
    (l.map (fun v => c * v)).sum = c * l.sum := by
  induction l with
  | nil => simp
  | cons a t ih => simp [ih, mul_add]

lemma matSum_scalarMul (c : ℚ) (m : Mat) :
    matSum (scalarMul c m) = c * matSum m := by
  induction m with
  | nil => simp [matSum, scalarMul]
  | cons r t ih =>
    simp only [matSum, scalarMul, List.map_cons, List.sum_cons] at ih ⊢
    rw [sum_map_mul, ih, mul_add]

lemma matSum_inv_smul (S : ℕ) (m : Mat) :
    matSum (scalarMul (1 / (S : ℚ)) m) = matSum m / S := by
  rw [matSum_scalarMul, one_div, inv_mul_eq_div]

lemma row_indicator_eq_countP (row : List ℤ) :
    (row.map (fun v => if v < 0 then (0 : ℤ) else 1)).sum
      = (row.countP (fun v => 0 ≤ v) : ℤ) := by
  induction row with
  | nil => simp
  | cons a t ih =>
    by_cases ha : a < 0
    · have ha2 : ¬(0 ≤ a) := by omega
      simp [List.countP_cons, ha, ha2, ih]
    · have ha2 : 0 ≤ a := by omega
      simp [List.countP_cons, ha, ha2, ih]
      omega

lemma validTokenCount_eq_countNonneg (x : List (List ℤ)) :
    validTokenCount x = (countNonneg x : ℤ) := by
  induction x with
  | nil => simp [validTokenCount, countNonneg]
  | cons r t ih =>
    simp only [validTokenCount, countNonneg, List.map_cons, List.sum_cons] at ih ⊢
    rw [row_indicator_eq_countP]
    push_cast at ih ⊢
    omega

lemma countNonneg_ne_zero_iff (x : List (List ℤ)) :
    countNonneg x ≠ 0 ↔ ∃ row ∈ x, ∃ v ∈ row, 0 ≤ v := by
  induction x with
  | nil => simp [countNonneg]
  | cons r t ih =>
    simp only [countNonneg, List.map_cons, List.sum_cons] at ih ⊢
    constructor
    · intro h
      by_cases hr : r.countP (fun v => 0 ≤ v) = 0
      · have ht : (t.map (fun row => row.countP (fun v => 0 ≤ v))).sum ≠ 0 := by omega
        obtain ⟨row, hrow, hv⟩ := ih.mp ht
        exact ⟨row, List.mem_cons_of_mem _ hrow, hv⟩
      · obtain ⟨v, hv, hp⟩ := List.countP_pos_iff.mp (Nat.pos_of_ne_zero hr)
        exact ⟨r, List.mem_cons_self _ _, v, hv, by simpa using hp⟩
    · rintro ⟨row, hrow, v, hv, h0⟩
      rcases List.mem_cons.mp hrow with rfl | hrow2
      · have : 0 < row.countP (fun u => 0 ≤ u) :=
          List.countP_pos_iff.mpr ⟨v, hv, by simpa using h0⟩
        omega
      · have := ih.mpr ⟨row, hrow2, v, hv, h0⟩
        omega

/-- C2: the mode dispatch of `symbolic_elbo` (src lines 135-141).
Writing `matSum lpx / S` for the batch-summed Monte-Carlo mean
`T.sum((1/S) * log_p_x)`: with `optimal_ratio` true the elbo subtracts half
the summed KL (for any `beta`); with it false and no `beta` it subtracts the
full summed KL; with it false and `beta` given it subtracts the sum of
`beta * kl`. -/
theorem symbolic_elbo_modes (Texp : ℚ → ℚ) (emb : Mat) (E : ℕ)
    (recModel : RecSampler) (genLogPx : GenLogPx)
    (x x_m : List (List ℤ)) (S : ℕ) (beta : Option ℚ) (b : ℚ) (dm : Option Mat)
    (z : Mat) (kl : List ℚ) (lpx : Mat)
    (hrec : recModel x_m (embedder E x_m emb) S = (z, kl))
    (hgen : genLogPx x (embedder E x emb) (droppedEmbedding E emb x dm) z emb = lpx) :
    (symbolic_elbo Texp emb E recModel genLogPx x x_m S true beta dm).1
        = matSum lpx / S - kl.sum / 2
    ∧ (symbolic_elbo Texp emb E recModel genLogPx x x_m S false none dm).1
        = matSum lpx / S - kl.sum
    ∧ (symbolic_elbo Texp emb E recModel genLogPx x x_m S false (some b) dm).1
        = matSum lpx / S - (kl.map (fun v => b * v)).sum := by
  refine ⟨?_, ?_, ?_⟩ <;>
    simp only [symbolic_elbo, hrec, hgen, matSum_inv_smul, if_true, if_false,
      Bool.false_eq_true, ite_true, ite_false]

/-- Witness for C2 with one-element collaborator outputs:
`kl = [2]`, `log_p_x = [[6]]`, `S = 3`. -/
theorem symbolic_elbo_modes_witness :
    (symbolic_elbo id [[(1 : ℚ)]] 1 (fun _ _ _ => ([[(0 : ℚ)]], [(2 : ℚ)]))
        (fun _ _ _ _ _ => [[(6 : ℚ)]]) [[(0 : ℤ)]] [[(0 : ℤ)]] 3 true (some 7) none).1
        = matSum [[(6 : ℚ)]] / 3 - List.sum [(2 : ℚ)] / 2
    ∧ (symbolic_elbo id [[(1 : ℚ)]] 1 (fun _ _ _ => ([[(0 : ℚ)]], [(2 : ℚ)]))
        (fun _ _ _ _ _ => [[(6 : ℚ)]]) [[(0 : ℤ)]] [[(0 : ℤ)]] 3 false none none).1
        = matSum [[(6 : ℚ)]] / 3 - List.sum [(2 : ℚ)]
    ∧ (symbolic_elbo id [[(1 : ℚ)]] 1 (fun _ _ _ => ([[(0 : ℚ)]], [(2 : ℚ)]))
        (fun _ _ _ _ _ => [[(6 : ℚ)]]) [[(0 : ℤ)]] [[(0 : ℤ)]] 3 false (some 5) none).1
        = matSum [[(6 : ℚ)]] / 3 - (List.map (fun v => 5 * v) [(2 : ℚ)]).sum :=
  symbolic_elbo_modes id [[(1 : ℚ)]] 1 (fun _ _ _ => ([[(0 : ℚ)]], [(2 : ℚ)]))
    (fun _ _ _ _ _ => [[(6 : ℚ)]]) [[(0 : ℤ)]] [[(0 : ℤ)]] 3 (some 7) 5 none
    [[(0 : ℚ)]] [(2 : ℚ)] [[(6 : ℚ)]] rfl rfl

/-- C8: the perplexity proxy returned by `symbolic_elbo` (src line 143)
equals `T.exp` of `-(mean_over_S(log_p_x) - sum(kl)) / valid_token_count`
for every combination mode — it always uses the unweighted summed KL,
whatever `beta` and `optimal_ratio` select for the elbo — and its divisor
counts exactly the non-negative (non-sentinel) entries of `x`. -/
theorem symbolic_elbo_perplexity (Texp : ℚ → ℚ) (emb : Mat) (E : ℕ)
    (recModel : RecSampler) (genLogPx : GenLogPx)
    (x x_m : List (List ℤ)) (S : ℕ) (mode : Bool) (beta : Option ℚ)
    (dm : Option Mat) (z : Mat) (kl : List ℚ) (lpx : Mat)
    (hrec : recModel x_m (embedder E x_m emb) S = (z, kl))
    (hgen : genLogPx x (embedder E x emb) (droppedEmbedding E emb x dm) z emb = lpx) :
    (symbolic_elbo Texp emb E recModel genLogPx x x_m S mode beta dm).2.2
        = Texp (-(matSum lpx / S - kl.sum) / (validTokenCount x : ℚ))
    ∧ validTokenCount x = (countNonneg x : ℤ) := by
  constructor
  · simp only [symbolic_elbo, hrec, hgen, matSum_inv_smul]
  · exact validTokenCount_eq_countNonneg x

/-- Witness for C8 at `x = [[0, -1]]` (one valid token), `kl = [2]`,
`log_p_x = [[6]]`, `S = 3`, with the annealed mode selected. -/
theorem symbolic_elbo_perplexity_witness :
    (symbolic_elbo id [[(1 : ℚ)]] 1 (fun _ _ _ => ([[(0 : ℚ)]], [(2 : ℚ)]))
        (fun _ _ _ _ _ => [[(6 : ℚ)]]) [[(0 : ℤ), -1]] [[(0 : ℤ)]] 3 false (some 5) none).2.2
        = id (-(matSum [[(6 : ℚ)]] / 3 - List.sum [(2 : ℚ)]) /
            (validTokenCount [[(0 : ℤ), -1]] : ℚ))
    ∧ validTokenCount [[(0 : ℤ), -1]] = (countNonneg [[(0 : ℤ), -1]] : ℤ) :=
  symbolic_elbo_perplexity id [[(1 : ℚ)]] 1 (fun _ _ _ => ([[(0 : ℚ)]], [(2 : ℚ)]))
    (fun _ _ _ _ _ => [[(6 : ℚ)]]) [[(0 : ℤ), -1]] [[(0 : ℤ)]] 3 false (some 5) none
    [[(0 : ℚ)]] [(2 : ℚ)] [[(6 : ℚ)]] rfl rfl

/-- C10: the perplexity divisor `validTokenCount` equals the number of
non-negative entries of `x`; it is nonzero exactly when `x` has at least one
non-negative entry; and an all-negative `x` makes it zero, so the division
in the perplexity proxy then divides by zero. -/
theorem validTokenCount_spec (x : List (List ℤ)) :
    validTokenCount x = (countNonneg x : ℤ)
    ∧ (validTokenCount x ≠ 0 ↔ ∃ row ∈ x, ∃ v ∈ row, 0 ≤ v)
    ∧ ((∀ row ∈ x, ∀ v ∈ row, v < 0) → validTokenCount x = 0) := by
  have hcount := validTokenCount_eq_countNonneg x
  refine ⟨hcount, ?_, ?_⟩
  · rw [hcount, Int.natCast_ne_zero]
    exact countNonneg_ne_zero_iff x
  · intro hneg
    rw [hcount, Int.natCast_eq_zero]
    by_contra hne
    obtain ⟨row, hrow, v, hv, h0⟩ := (countNonneg_ne_zero_iff x).mp hne
    exact absurd h0 (not_le.mpr (hneg row hrow v hv))

/-- Witness for C10: the all-negative matrix `[[-3], [-2]]` yields a zero
divisor. -/
theorem validTokenCount_spec_witness :
    validTokenCount [[(-3 : ℤ)], [(-2 : ℤ)]] = 0 :=
  (validTokenCount_spec [[(-3 : ℤ)], [(-2 : ℤ)]]).2.2 (by decide)

/-- C6: on indices in `[-1, V-1]`, `embedder` agrees with the spec-side
lookup — the sentinel -1 yields the all-zero `E`-vector whatever the table
holds, and any index in `[0, V-1]` yields row `i` of the table passed at
call time.  The table is an explicit argument and the function is pure, so
the result always reflects the caller's current table and the table is
never modified. -/
theorem embedder_spec (V E : ℕ) (table : Mat) (x : List (List ℤ))
    (htab : table.length = V)
    (hx : ∀ row ∈ x, ∀ i ∈ row, -1 ≤ i ∧ i ≤ (V : ℤ) - 1) :
    embedder E x table = x.map (fun row => row.map (specLookup E table)) := by
  simp only [embedder]
  refine List.map_congr_left (fun row hrow => ?_)
  refine List.map_congr_left (fun i hi => ?_)
  obtain ⟨h1, h2⟩ := hx row hrow i hi
  have hlen : (table ++ [List.replicate E (0 : ℚ)]).length = V + 1 := by
    simp [htab]
  by_cases hneg : i = -1
  · subst hneg
    rw [specLookup, if_pos rfl, lookupRow]
    simp only [hlen]
    rw [if_pos (by norm_num : (-1 : ℤ) < 0)]
    have hidx : (((V + 1 : ℕ) : ℤ) + -1).toNat = V := by omega
    rw [hidx, List.getD_append_right table _ [] V (by omega), htab]
    simp
  · have hge : 0 ≤ i := by omega
    have hlt : i.toNat < table.length := by omega
    rw [specLookup, if_neg hneg, lookupRow]
    simp only [hlen]
    rw [if_neg (by omega : ¬ i < 0)]
    exact List.getD_append table _ [] i.toNat hlt

/-- Witness for C6: `V = 2`, `E = 2`, table `[[1,2],[3,4]]`, indices
`[-1, 0, 1]`. -/
theorem embedder_spec_witness :
    embedder 2 [[(-1 : ℤ), 0, 1]] [[(1 : ℚ), 2], [3, 4]]
      = [[(-1 : ℤ), 0, 1]].map (fun row => row.map (specLookup 2 [[(1 : ℚ), 2], [3, 4]])) :=
  embedder_spec 2 2 [[(1 : ℚ), 2], [3, 4]] [[(-1 : ℤ), 0, 1]] (by decide) (by decide)

/-- C3 (the code contradicts the claim): the restore loop pairs fresh and
saved accumulators with `zip`, which silently stops at the shorter
sequence.  With two fresh accumulators `[1, 2]`: a one-element saved state
overwrites only the first (no failure, the second keeps its fresh value), a
matching two-element state is copied position-by-position, and a
three-element state is silently truncated. -/
theorem restore_saved_update_silently_truncates :
    restore_saved_update [(1 : ℚ), 2] [9] = [9, 2]
    ∧ restore_saved_update [(1 : ℚ), 2] [9, 7] = [9, 7]
    ∧ restore_saved_update [(1 : ℚ), 2] [9, 7, 8] = [9, 7] := by
  refine ⟨rfl, rfl, rfl⟩

lemma sumSq_nonneg (m : List (List ℝ)) : 0 ≤ sumSq m := by
  apply List.sum_nonneg
  intro a ha
  obtain ⟨row, hrow, rfl⟩ := List.mem_map.mp ha
  apply List.sum_nonneg
  intro v hv
  obtain ⟨u, hu, rfl⟩ := List.mem_map.mp hv
  exact sq_nonneg u

lemma rowSq_smul (t : ℝ) (r : List ℝ) :
    ((r.map (fun v => t * v)).map (fun v => v ^ 2)).sum
      = t ^ 2 * ((r.map (fun v => v ^ 2)).sum) := by
  induction r with
  | nil => simp
  | cons a s ih =>
    simp only [List.map_cons, List.sum_cons, ih]
    ring

lemma sumSq_smul (t : ℝ) (m : List (List ℝ)) :
    sumSq (m.map (List.map (fun v => t * v))) = t ^ 2 * sumSq m := by
  induction m with
  | nil => simp [sumSq]
  | cons r rest ih =>
    simp only [sumSq, List.map_cons, List.sum_cons] at ih ⊢
    rw [rowSq_smul, ih, mul_add]

lemma sumSq_norm_constraint (c : ℝ) (m : List (List ℝ)) (hc : 0 < c)
    (hm : c ^ 2 < sumSq m) : sumSq (norm_constraint c m) = c ^ 2 := by
  have hs : (0 : ℝ) < sumSq m := lt_trans (pow_pos hc 2) hm
  rw [norm_constraint, if_neg (not_le.mpr hm), sumSq_smul, div_pow,
    Real.sq_sqrt (le_of_lt hs), div_mul_cancel₀ _ (ne_of_gt hs)]

/-- C4: the optimiser's gradient-clipping pass.  With a threshold
configured, the pass maps the rank dispatch over all gradients; a gradient
of rank at most 1 passes through unchanged; a rank-2 gradient goes through
`norm_constraint`, after which its squared Euclidean norm is at most the
squared threshold, and when its raw norm exceeded the threshold the clipped
norm equals the threshold exactly.  (`norm_constraint` itself is an
external-library call, modelled from the spec.) -/
theorem gradient_clipping (c : ℝ) (grads : List GTensor) (g : GTensor)
    (m : List (List ℝ)) (hc : 0 < c) (hg : g.ndim ≤ 1) (hm : c ^ 2 < sumSq m) :
    clip_grads (some c) grads = grads.map (clipOne c)
    ∧ clip_grads none grads = grads
    ∧ clipOne c g = g
    ∧ clipOne c (GTensor.mat m) = GTensor.mat (norm_constraint c m)
    ∧ sumSq (norm_constraint c m) ≤ c ^ 2
    ∧ Real.sqrt (sumSq (norm_constraint c m)) = c := by
  refine ⟨rfl, rfl, ?_, ?_, ?_, ?_⟩
  · rw [clipOne, if_neg (by omega)]
  · rw [clipOne]
    rfl
  · rw [sumSq_norm_constraint c m hc hm]
  · rw [sumSq_norm_constraint c m hc hm]
    exact Real.sqrt_sq (le_of_lt hc)

/-- Witness for C4: threshold 4, gradients a 2x1 matrix `[[3],[4]]` of raw
norm 5 and a vector `[7]`; the matrix is clipped to norm 4, the vector
passes through. -/
theorem gradient_clipping_witness :
    clip_grads (some 4) [GTensor.mat [[3], [4]], GTensor.vec [7]]
        = [GTensor.mat [[3], [4]], GTensor.vec [7]].map (clipOne 4)
    ∧ clip_grads none [GTensor.mat [[3], [4]], GTensor.vec [7]]
        = [GTensor.mat [[3], [4]], GTensor.vec [7]]
    ∧ clipOne 4 (GTensor.vec [7]) = GTensor.vec [7]
    ∧ clipOne 4 (GTensor.mat [[3], [4]]) = GTensor.mat (norm_constraint 4 [[3], [4]])
    ∧ sumSq (norm_constraint 4 [[3], [4]]) ≤ 4 ^ 2
    ∧ Real.sqrt (sumSq (norm_constraint 4 [[3], [4]])) = 4 :=
  gradient_clipping 4 [GTensor.mat [[3], [4]], GTensor.vec [7]] (GTensor.vec [7])
    [[3], [4]] (by norm_num) (by simp [GTensor.ndim]) (by norm_num [sumSq])

end SGVBWords
